import Mathlib

/-!
Verification of the vision-to-state reconstruction pipeline of the
solitaire-OCR program (`src/rust/src/main.rs`).

The pipeline's algorithmic core is embedded shallowly:

* pixel coordinates are `Int` (the Rust code uses `i32`; no arithmetic in the
  embedded fragment can overflow 32 bits when the inputs are in `i32` range,
  except where noted, and Rust's truncating `/` on `i32` is rendered as
  `Int.tdiv`);
* the `f32` overlap ratio and the percentage-band arithmetic are rendered
  over `ℚ` (the quantities compared are exact small dyadic/decimal values,
  where `f32` evaluation and exact evaluation agree);
* `Vec<T>` is `List T`, labels are `String`.

Each Rust function keeps its name.  Helper definitions named `...Spec` are
*not* translations of the code: they restate sentences of the specification
document and are compared with the translated code by theorem.
-/

/-- Rust `struct BoundingBox` (main.rs:10-17). -/
structure BoundingBox where
  x1 : Int
  y1 : Int
  x2 : Int
  y2 : Int
  label : String
deriving DecidableEq, Repr

/-- Rust `struct GameState` (main.rs:19-24). -/
structure GameState where
  draw_pile : List String
  game_piles : List (List String)
  discard_pile : List String
deriving DecidableEq, Repr

/-- Intersection area of two boxes, as computed inside the `retain` closure of
`non_maximum_suppression` (main.rs:186-191): clamped width times clamped
height, each `.max(0)`. -/
def interArea (current b : BoundingBox) : Int :=
  max (min current.x2 b.x2 - max current.x1 b.x1) 0 *
    max (min current.y2 b.y2 - max current.y1 b.y1) 0

/-- `box_area` of the compared box `b` (main.rs:192). -/
def boxArea (b : BoundingBox) : Int := (b.x2 - b.x1) * (b.y2 - b.y1)

/-- The `overlap` value of main.rs:193: intersection area divided by the area
of the *compared* box `b` (the box that is a candidate for suppression), not
of the kept box and not of the smaller box. -/
def overlap (current b : BoundingBox) : ℚ :=
  (interArea current b : ℚ) / (boxArea b : ℚ)

/-- The `retain` predicate of main.rs:185-196: a remaining box `b` survives
the kept box `current` iff `overlap current b ≤ t`. -/
def keepAgainst (t : ℚ) (current b : BoundingBox) : Bool :=
  decide (overlap current b ≤ t)

/-- One step of a stable insertion sort for descending `y2`.  `a` is placed
before the first element `b` with `b.y2 ≤ a.y2`; since `a` precedes (in the
original list) everything it is inserted into, ties keep insertion order,
exactly like `boxes.sort_by(|a, b| b.y2.cmp(&a.y2))` (main.rs:182), which is
Rust's stable sort with the descending-`y2` comparator.  A stable sort is
uniquely determined by the comparator and stability, so this insertion sort
computes the same permutation as Rust's merge sort. -/
def insertDescY2 (a : BoundingBox) : List BoundingBox → List BoundingBox
  | [] => [a]
  | b :: bs => if b.y2 ≤ a.y2 then a :: b :: bs else b :: insertDescY2 a bs

/-- Stable sort by descending `y2` (main.rs:182). -/
def sortDescY2 : List BoundingBox → List BoundingBox
  | [] => []
  | a :: rest => insertDescY2 a (sortDescY2 rest)

/-- The `while let Some(current) = boxes.pop()` loop of main.rs:183-197,
applied to the reversed sorted vector: popping from the back of the
descending-sorted `Vec` is taking the head of its reversal, and `retain`
preserves the order of the remainder. -/
def nmsAux (t : ℚ) : List BoundingBox → List BoundingBox
  | [] => []
  | current :: rest => current :: nmsAux t (rest.filter (keepAgainst t current))
termination_by l => l.length
decreasing_by
  simp only [List.length_cons]
  exact Nat.lt_succ_of_le (List.length_filter_le _ _)

/-- Rust `non_maximum_suppression` (main.rs:174-199). -/
def non_maximum_suppression (boxes : List BoundingBox) (overlap_thresh : ℚ) :
    List BoundingBox :=
  nmsAux overlap_thresh (sortDescY2 boxes).reverse

/-- The vertical-overlap test `(suit.y1 <= card.y2) && (suit.y2 >= card.y1)`
of main.rs:214. -/
def vertOverlap (card suit : BoundingBox) : Prop :=
  suit.y1 ≤ card.y2 ∧ suit.y2 ≥ card.y1

instance (card suit : BoundingBox) : Decidable (vertOverlap card suit) :=
  inferInstanceAs (Decidable (_ ∧ _))

/-- The horizontal distance `(suit.x1 - card.x2).abs()` of main.rs:213. -/
def suitGap (card suit : BoundingBox) : Int := |suit.x1 - card.x2|

/-- One iteration of the closest-suit scan (main.rs:212-220) on the running
state `(min_distance, closest_suit)`: update only when the suit vertically
overlaps the card and its horizontal distance is strictly below the running
minimum. -/
def suitScanStep (card : BoundingBox) (acc : Int × Option String)
    (suit : BoundingBox) : Int × Option String :=
  if vertOverlap card suit ∧ suitGap card suit < acc.1 then
    (suitGap card suit, some suit.label)
  else acc

/-- The closest-suit scan of `associate_cards_and_suits` (main.rs:208-220):
fold over the suits starting from `(i32::MAX, None)`. -/
def findClosestSuit (card : BoundingBox) (suits : List BoundingBox) : Option String :=
  (suits.foldl (suitScanStep card) ((2147483647 : Int), (none : Option String))).2

/-- Rust `associate_cards_and_suits` (main.rs:201-231). -/
def associate_cards_and_suits (cards suits : List BoundingBox) : List BoundingBox :=
  cards.map fun card =>
    match findClosestSuit card suits with
    | some suit_label => { card with label := card.label ++ " " ++ suit_label }
    | none => card

/-- Horizontal center of a box divided by the image width (main.rs:244-245). -/
def xPercentage (b : BoundingBox) (image_width : Int) : ℚ :=
  (((b.x1 + b.x2 : Int) : ℚ) / 2) / (image_width : ℚ)

/-- The nine percentage ranges `(i as f32 / 9.0, (i + 1) as f32 / 9.0)` of
main.rs:238, indexed `0..9`. -/
def zoneList : List Nat := [0, 1, 2, 3, 4, 5, 6, 7, 8]

/-- Lower bound `i / 9` of band `i` (main.rs:238). -/
def bandLo (i : Nat) : ℚ := (i : ℚ) / 9

/-- Upper bound `(i + 1) / 9` of band `i` (main.rs:238). -/
def bandHi (i : Nat) : ℚ := ((i : ℚ) + 1) / 9

/-- The membership test `start <= x_percentage && x_percentage < end` of
main.rs:248. -/
def inBand (i : Nat) (p : ℚ) : Bool := decide (bandLo i ≤ p ∧ p < bandHi i)

/-- The zone a box is pushed to by the inner loop of main.rs:247-253: the
first band (there is at most one) whose half-open range contains the box's
horizontal center percentage; `none` when no band contains it (then the box
is silently dropped, the loop body never pushes it). -/
def zoneOf (b : BoundingBox) (image_width : Int) : Option Nat :=
  zoneList.find? (fun i => inBand i (xPercentage b image_width))

/-- Rust `group_bounding_boxes_by_x_percentage` (main.rs:234-257), with the
string-keyed `HashMap` rendered as a function from the band index to that
band's bucket; boxes are appended in input order, so a bucket is the input
filtered to the boxes assigned to it. -/
def group_bounding_boxes_by_x_percentage (bounding_boxes : List BoundingBox)
    (image_width : Int) (z : Nat) : List BoundingBox :=
  bounding_boxes.filter fun b => decide (zoneOf b image_width = some z)

/-- The loop of `group_bounding_boxes_by_y_range` (main.rs:269-287) with its
mutable state made explicit: `yStart`/`yEnd` bound the current bucket and
`currentRow` is the open row.  Integer centers and the re-anchoring
`center_y / y_range_step * y_range_step` use Rust's truncating division. -/
def groupYAux (step yStart yEnd : Int) (currentRow : List BoundingBox) :
    List BoundingBox → List (List BoundingBox)
  | [] => if currentRow = [] then [] else [currentRow]
  | b :: rest =>
    let centerY := (b.y1 + b.y2).tdiv 2
    if yStart ≤ centerY ∧ centerY < yEnd then
      groupYAux step yStart yEnd (currentRow ++ [b]) rest
    else
      let newStart := (centerY.tdiv step) * step
      if currentRow = [] then
        groupYAux step newStart (newStart + step) [b] rest
      else
        currentRow :: groupYAux step newStart (newStart + step) [b] rest

/-- Rust `group_bounding_boxes_by_y_range` (main.rs:259-289): the state starts
at `y_start = 0`, `y_end = y_range_step` with an empty current row. -/
def group_bounding_boxes_by_y_range (bounding_boxes : List BoundingBox)
    (y_range_step : Int) : List (List BoundingBox) :=
  groupYAux y_range_step 0 y_range_step [] bounding_boxes

/-- The discard-zone label filter of main.rs:317: Rust's
`b.label.contains("J")` with a one-character pattern is containment of the
character `J`. -/
def labelHasJ (s : String) : Bool := s.toList.contains 'J'

/-- Rust `i32::saturating_sub` (main.rs:340): the mathematical difference
clamped into the `i32` range.  (It does *not* clamp at zero.) -/
def saturatingSubI32 (a b : Int) : Int :=
  max (min (a - b) 2147483647) (-2147483648)

/-- Rust `as usize` applied to an `i32` (main.rs:341): sign-extend and
reinterpret in the 64-bit `usize` range, i.e. reduce modulo `2 ^ 64`. -/
def usizeOfI32 (v : Int) : Nat := (v.emod 18446744073709551616).toNat

/-- Rust `Vec::resize(n, "null")` (main.rs:341): truncate to `n` entries or
pad with the sentinel up to `n` entries. -/
def resizeNull (l : List String) (n : Nat) : List String :=
  l.take n ++ List.replicate (n - l.length) "null"

/-- In-place update `game_piles[index] = f(game_piles[index])` on a list. -/
def modifyPile (piles : List (List String)) (i : Nat)
    (f : List String → List String) : List (List String) :=
  piles.set i (f (piles.getD i []))

/-- The start percentage parsed back out of a zone's `HashMap` key
(main.rs:324-330).  The keys are the `format!("{:.0}%-{:.0}%", ...)` renderings
of the nine bands, namely `0%-11%`, `11%-22%`, `22%-33%`, `33%-44%`,
`44%-56%`, `56%-67%`, `67%-78%`, `78%-89%`, `89%-100%` (`{:.0}` rounds
`i/9*100` computed in `f32` to the nearest integer), so parsing the leading
integer of key `z` yields the value below. -/
def startPercent : Nat → Int
  | 0 => 0
  | 1 => 11
  | 2 => 22
  | 3 => 33
  | 4 => 44
  | 5 => 56
  | 6 => 67
  | 7 => 78
  | _ => 89

/-- Labels of one row, in row order. -/
def rowLabels (row : List BoundingBox) : List String := row.map fun b => b.label

/-- The discard-pile branch of `generate_game_state` (main.rs:313-323):
`for (i, row) in rows.iter().enumerate().take(4)`, writing the first box's
label (with the `J` filter) into slot `i`. -/
def updateDiscard (disc : List (Option String)) (rows : List (List BoundingBox)) :
    List (Option String) :=
  (rows.enum.take 4).foldl
    (fun d p =>
      match p.2.head? with
      | some b => d.set p.1 (some (if labelHasJ b.label then "null" else b.label))
      | none => d)
    disc

/-- The tableau branch of `generate_game_state` (main.rs:331-346) for one
zone: if a topmost box exists, resize pile `idx` to the inferred number of
leading sentinels, then extend it with every row's labels.  Rust's
`min_by_key(|b| b.y1)` picks the last minimiser on ties, but only the
minimising `y1` *value* is read, so the minimum of the mapped list is used
here. -/
def updatePile (piles : List (List String)) (idx : Nat)
    (rows : List (List BoundingBox)) (y_range_step : Int) : List (List String) :=
  let withLead :=
    match (rows.flatten.map fun b => b.y1).min? with
    | some topY1 =>
        modifyPile piles idx fun cur =>
          resizeNull cur (usizeOfI32 ((saturatingSubI32 topY1 75).tdiv y_range_step))
    | none => piles
  rows.foldl (fun ps row => modifyPile ps idx fun cur => cur ++ rowLabels row) withLead

/-- One iteration of the `for (x_range, boxes) in grouped_by_x` loop of
main.rs:305-348, on the state `(draw_pile, game_piles, discard_pile)`.  The
`HashMap` yields its nine keys in arbitrary order, but the three branches
write disjoint parts of the state (`0%-11%` only the draw pile, `89%-100%`
only the discard slots, and each remaining zone a distinct tableau index), so
the loop equals a fold over the zones in any fixed order. -/
def applyZone (y_range_step : Int) (rowsOf : Nat → List (List BoundingBox))
    (st : List String × List (List String) × List (Option String)) (z : Nat) :
    List String × List (List String) × List (Option String) :=
  let rows := rowsOf z
  if z = 0 then
    ((rows.map rowLabels).flatten, st.2.1, st.2.2)
  else if z = 8 then
    (st.1, st.2.1, updateDiscard st.2.2 rows)
  else
    let index := ((startPercent z - 11).tdiv 11).toNat
    if index < st.2.1.length then
      (st.1, updatePile st.2.1 index rows y_range_step, st.2.2)
    else st

/-- The rows of one zone inside `generate_game_state` (main.rs:297-306):
associate cards with suits, bucket by horizontal zone, then group the zone's
boxes into vertical rows. -/
def zoneRows (cards suits : List BoundingBox) (image_width y_range_step : Int)
    (z : Nat) : List (List BoundingBox) :=
  group_bounding_boxes_by_y_range
    (group_bounding_boxes_by_x_percentage
      (associate_cards_and_suits cards suits) image_width z) y_range_step

/-- Rust `generate_game_state` (main.rs:291-360). -/
def generate_game_state (cards suits : List BoundingBox)
    (image_width y_range_step : Int) : GameState :=
  let final := zoneList.foldl
    (applyZone y_range_step (zoneRows cards suits image_width y_range_step))
    ([], List.replicate 7 [], List.replicate 4 (none : Option String))
  { draw_pile := final.1
    game_piles := final.2.1
    discard_pile := final.2.2.map fun card => card.getD "null" }

/-! ## Specification-side definitions

The following definitions restate sentences of the specification document in
Lean; they are *not* translations of the Rust code and exist to be compared
with the translated code by theorem. -/

/-- Modelled from the spec, §4.3: the (unique) box with the smallest `y2`
among a collection, ties to the earliest.  Used to state "repeatedly take the
box with the smallest `y2` remaining". -/
def smallestY2 : List BoundingBox → Option BoundingBox
  | [] => none
  | b :: rest =>
    match smallestY2 rest with
    | none => some b
    | some m => if b.y2 ≤ m.y2 then some b else some m

theorem smallestY2_mem : ∀ {l : List BoundingBox} {m : BoundingBox},
    smallestY2 l = some m → m ∈ l := by
  intro l
  induction l with
  | nil => intro m h; simp [smallestY2] at h
  | cons b rest ih =>
    intro m h
    rw [smallestY2] at h
    cases hr : smallestY2 rest with
    | none => rw [hr] at h; simp_all
    | some m0 =>
      rw [hr] at h
      by_cases hbm : b.y2 ≤ m0.y2
      · simp [hbm] at h; simp [h]
      · simp [hbm] at h; subst h; exact List.mem_cons_of_mem _ (ih hr)

theorem smallestY2_eq_none : ∀ {l : List BoundingBox},
    smallestY2 l = none → l = [] := by
  intro l h
  cases l with
  | nil => rfl
  | cons b rest =>
    rw [smallestY2] at h
    cases h2 : smallestY2 rest with
    | none => rw [h2] at h; cases h
    | some m0 =>
      simp only [h2] at h
      by_cases hbm : b.y2 ≤ m0.y2
      · rw [if_pos hbm] at h; cases h
      · rw [if_neg hbm] at h; cases h

theorem smallestY2_le : ∀ {l : List BoundingBox} {m : BoundingBox},
    smallestY2 l = some m → ∀ b ∈ l, m.y2 ≤ b.y2 := by
  intro l
  induction l with
  | nil => intro m h; simp [smallestY2] at h
  | cons b rest ih =>
    intro m h c hc
    rw [smallestY2] at h
    cases hr : smallestY2 rest with
    | none =>
      rw [hr] at h
      simp only [Option.some.injEq] at h
      subst h
      have hrest : rest = [] := smallestY2_eq_none hr
      subst hrest
      simp only [List.mem_singleton] at hc
      subst hc
      exact le_refl _
    | some m0 =>
      simp only [hr] at h
      by_cases hbm : b.y2 ≤ m0.y2
      · rw [if_pos hbm] at h
        simp only [Option.some.injEq] at h
        subst h
        rcases List.mem_cons.mp hc with hcb | hcr
        · subst hcb; exact le_refl _
        · exact le_trans hbm (ih hr c hcr)
      · rw [if_neg hbm] at h
        simp only [Option.some.injEq] at h
        subst h
        rcases List.mem_cons.mp hc with hcb | hcr
        · subst hcb; exact le_of_lt (lt_of_not_le hbm)
        · exact ih hr c hcr

/-- Modelled from the spec, §4.3: "repeatedly take the box with the smallest
`y2` remaining, keep it, and discard any remaining box whose overlap ratio
against the kept box exceeds `t`; continue until no boxes remain." -/
def nmsSpecMin (t : ℚ) (boxes : List BoundingBox) : List BoundingBox :=
  match h : smallestY2 boxes with
  | none => []
  | some m => m :: nmsSpecMin t ((boxes.erase m).filter (keepAgainst t m))
termination_by boxes.length
decreasing_by
  have hm := smallestY2_mem h
  calc ((boxes.erase m).filter (keepAgainst t m)).length
      ≤ (boxes.erase m).length := List.length_filter_le _ _
    _ < boxes.length := by
        rw [List.length_erase_of_mem hm]
        exact Nat.pred_lt (Nat.pos_iff_ne_zero.mp (List.length_pos_of_mem hm))

theorem nmsSpecMin_none {t : ℚ} {L : List BoundingBox} (h : smallestY2 L = none) :
    nmsSpecMin t L = [] := by
  rw [nmsSpecMin]
  split
  · rfl
  · rename_i m hm; rw [hm] at h; cases h

theorem nmsSpecMin_some {t : ℚ} {L : List BoundingBox} {m : BoundingBox}
    (h : smallestY2 L = some m) :
    nmsSpecMin t L = m :: nmsSpecMin t ((L.erase m).filter (keepAgainst t m)) := by
  rw [nmsSpecMin]
  split
  · rename_i hn; rw [hn] at h; cases h
  · rename_i m' hm'; rw [hm'] at h; cases h; rfl

/-! ## Properties of the overlap suppressor -/

theorem nmsAux_nil (t : ℚ) : nmsAux t [] = [] := by
  rw [nmsAux]

theorem nmsAux_cons (t : ℚ) (current : BoundingBox) (rest : List BoundingBox) :
    nmsAux t (current :: rest) =
      current :: nmsAux t (rest.filter (keepAgainst t current)) := by
  rw [nmsAux]

theorem mem_of_mem_nmsAux (t : ℚ) :
    ∀ (n : Nat) (L : List BoundingBox), L.length ≤ n →
      ∀ b ∈ nmsAux t L, b ∈ L := by
  intro n
  induction n with
  | zero =>
    intro L hL b hb
    have : L = [] := List.length_eq_zero.mp (Nat.le_zero.mp hL)
    subst this
    rw [nmsAux_nil] at hb
    cases hb
  | succ n ih =>
    intro L hL b hb
    cases L with
    | nil => rw [nmsAux_nil] at hb; cases hb
    | cons c rest =>
      rw [nmsAux_cons] at hb
      rcases List.mem_cons.mp hb with hbc | hbr
      · simp [hbc]
      · have hlen : (rest.filter (keepAgainst t c)).length ≤ n := by
          calc (rest.filter (keepAgainst t c)).length
              ≤ rest.length := List.length_filter_le _ _
            _ ≤ n := Nat.le_of_succ_le_succ (by simpa using hL)
        have := ih _ hlen b hbr
        exact List.mem_cons_of_mem _ (List.mem_filter.mp this).1

theorem nmsAux_pairwise (t : ℚ) :
    ∀ (n : Nat) (L : List BoundingBox), L.length ≤ n →
      (nmsAux t L).Pairwise fun a b => overlap a b ≤ t := by
  intro n
  induction n with
  | zero =>
    intro L hL
    have : L = [] := List.length_eq_zero.mp (Nat.le_zero.mp hL)
    subst this
    rw [nmsAux_nil]
    exact List.Pairwise.nil
  | succ n ih =>
    intro L hL
    cases L with
    | nil => rw [nmsAux_nil]; exact List.Pairwise.nil
    | cons c rest =>
      rw [nmsAux_cons]
      have hlen : (rest.filter (keepAgainst t c)).length ≤ n := by
        calc (rest.filter (keepAgainst t c)).length
            ≤ rest.length := List.length_filter_le _ _
          _ ≤ n := Nat.le_of_succ_le_succ (by simpa using hL)
      refine List.pairwise_cons.mpr ⟨?_, ih _ hlen⟩
      intro b hb
      have hbf := mem_of_mem_nmsAux t n _ hlen b hb
      have := (List.mem_filter.mp hbf).2
      rw [keepAgainst] at this
      exact of_decide_eq_true this

/-- C1.  The claim as frozen is false of the code: the retained-pair bound is
*not* the intersection over the smaller box's area.  Counterexample: with
threshold `1/2`, a small box `a` (kept first: its `y2` is smallest) and a
large box `b` fully containing it are *both* retained — `b` survives because
the code divides the intersection by the area of the compared box `b`
(`100 / 10000 ≤ 1/2`) — yet intersection over the smaller area is `1 > 1/2`. -/
theorem c1_smaller_area_cex :
    (⟨0, 0, 10, 10, "a"⟩ : BoundingBox) ∈
        non_maximum_suppression [⟨0, 0, 10, 10, "a"⟩, ⟨0, 0, 100, 100, "b"⟩] (1/2) ∧
    (⟨0, 0, 100, 100, "b"⟩ : BoundingBox) ∈
        non_maximum_suppression [⟨0, 0, 10, 10, "a"⟩, ⟨0, 0, 100, 100, "b"⟩] (1/2) ∧
    (⟨0, 0, 10, 10, "a"⟩ : BoundingBox) ≠ ⟨0, 0, 100, 100, "b"⟩ ∧
    ¬ ((interArea ⟨0, 0, 10, 10, "a"⟩ ⟨0, 0, 100, 100, "b"⟩ : ℚ) /
        (min (boxArea ⟨0, 0, 10, 10, "a"⟩) (boxArea ⟨0, 0, 100, 100, "b"⟩) : ℚ)
        ≤ 1/2) := by
  have hrun : non_maximum_suppression [⟨0, 0, 10, 10, "a"⟩, ⟨0, 0, 100, 100, "b"⟩] (1/2) =
      [⟨0, 0, 10, 10, "a"⟩, ⟨0, 0, 100, 100, "b"⟩] := by
    rw [non_maximum_suppression]
    norm_num [sortDescY2, insertDescY2, nmsAux_cons, nmsAux_nil, List.filter,
      keepAgainst, overlap, interArea, boxArea]
  refine ⟨by rw [hrun]; simp, by rw [hrun]; simp, by decide, ?_⟩
  norm_num [interArea, boxArea]

/-- C1 (amended).  Any two distinct boxes retained by
`non_maximum_suppression` from the same input overlap at ratio at most `t`,
where the ratio divides the intersection area by the area of the box retained
*later* (the compared box of the code's asymmetric formula) — not by the
smaller box's area. -/
theorem c1_pairwise_kept_overlap (boxes : List BoundingBox) (t : ℚ) :
    (non_maximum_suppression boxes t).Pairwise fun a b => overlap a b ≤ t :=
  nmsAux_pairwise t (sortDescY2 boxes).reverse.length _ (le_refl _)

theorem insertDescY2_perm (a : BoundingBox) (l : List BoundingBox) :
    (insertDescY2 a l).Perm (a :: l) := by
  induction l with
  | nil => rw [insertDescY2]
  | cons b bs ih =>
    rw [insertDescY2]
    by_cases hba : b.y2 ≤ a.y2
    · rw [if_pos hba]
    · rw [if_neg hba]
      exact (ih.cons b).trans (List.Perm.swap a b bs)

theorem sortDescY2_perm (l : List BoundingBox) : (sortDescY2 l).Perm l := by
  induction l with
  | nil => rw [sortDescY2]
  | cons a rest ih =>
    rw [sortDescY2]
    exact (insertDescY2_perm a (sortDescY2 rest)).trans (ih.cons a)

theorem insertDescY2_sorted (a : BoundingBox) (l : List BoundingBox)
    (h : l.Pairwise fun p q => q.y2 ≤ p.y2) :
    (insertDescY2 a l).Pairwise fun p q => q.y2 ≤ p.y2 := by
  induction l with
  | nil => rw [insertDescY2]; exact List.pairwise_singleton _ a
  | cons b bs ih =>
    rw [insertDescY2]
    obtain ⟨hb, hbs⟩ := List.pairwise_cons.mp h
    by_cases hba : b.y2 ≤ a.y2
    · rw [if_pos hba]
      refine List.pairwise_cons.mpr ⟨?_, h⟩
      intro x hx
      rcases List.mem_cons.mp hx with hxb | hxbs
      · subst hxb; exact hba
      · exact le_trans (hb x hxbs) hba
    · rw [if_neg hba]
      refine List.pairwise_cons.mpr ⟨?_, ih hbs⟩
      intro x hx
      rcases List.mem_cons.mp ((insertDescY2_perm a bs).mem_iff.mp hx) with hxa | hxbs
      · subst hxa
        exact le_of_lt (lt_of_not_le hba)
      · exact hb x hxbs

theorem sortDescY2_sorted (l : List BoundingBox) :
    (sortDescY2 l).Pairwise fun p q => q.y2 ≤ p.y2 := by
  induction l with
  | nil => rw [sortDescY2]; exact List.Pairwise.nil
  | cons a rest ih => rw [sortDescY2]; exact insertDescY2_sorted a _ ih

theorem eq_of_mem_of_distinctY2 {L : List BoundingBox}
    (hd : L.Pairwise fun a b => a.y2 ≠ b.y2) {a b : BoundingBox}
    (ha : a ∈ L) (hb : b ∈ L) (hy : a.y2 = b.y2) : a = b := by
  by_contra hne
  exact hd.forall (fun x y hxy => fun e => hxy e.symm) ha hb hne hy

/-- The implementation's pop-from-the-back loop over the stably descending
sorted vector computes, on inputs with pairwise distinct `y2`, exactly the
specification's extract-the-minimum-`y2` recursion. -/
theorem nmsAux_eq_nmsSpecMin (t : ℚ) :
    ∀ (n : Nat) (L M : List BoundingBox), L.length ≤ n → M.Perm L →
      (M.Pairwise fun a b => a.y2 ≤ b.y2) →
      (L.Pairwise fun a b => a.y2 ≠ b.y2) →
      nmsAux t M = nmsSpecMin t L := by
  intro n
  induction n with
  | zero =>
    intro L M hL hp _ _
    have hLnil : L = [] := List.length_eq_zero.mp (Nat.le_zero.mp hL)
    subst hLnil
    rw [hp.eq_nil, nmsAux_nil, nmsSpecMin_none (by rw [smallestY2])]
  | succ n ih =>
    intro L M hL hp hs hd
    cases M with
    | nil =>
      rw [(hp.symm.eq_nil), nmsAux_nil, nmsSpecMin_none (by rw [smallestY2])]
    | cons m M' =>
      have hmL : m ∈ L := hp.mem_iff.mp (List.mem_cons_self m M')
      have hsorted := List.pairwise_cons.mp hs
      have hmin : ∀ b ∈ L, m.y2 ≤ b.y2 := by
        intro b hb
        rcases List.mem_cons.mp (hp.mem_iff.mpr hb) with hbm | hbM'
        · subst hbm; exact le_refl _
        · exact hsorted.1 b hbM'
      have hsm : smallestY2 L = some m := by
        cases hL0 : smallestY2 L with
        | none =>
          have : L = [] := smallestY2_eq_none hL0
          subst this
          cases hmL
        | some m0 =>
          have h0 : m0 ∈ L := smallestY2_mem hL0
          have h1 := smallestY2_le hL0
          have heq : m0 = m :=
            eq_of_mem_of_distinctY2 hd h0 hmL
              (le_antisymm (h1 m hmL) (hmin m0 h0))
          rw [heq]
      rw [nmsAux_cons, nmsSpecMin_some hsm]
      have hperm : M'.Perm (L.erase m) :=
        List.Perm.cons_inv (hp.trans (List.perm_cons_erase hmL))
      have hsub : ((L.erase m).filter (keepAgainst t m)).Sublist L :=
        (List.filter_sublist _).trans (List.erase_sublist m L)
      congr 1
      refine ih ((L.erase m).filter (keepAgainst t m)) (M'.filter (keepAgainst t m))
        ?_ (hperm.filter _) (hsorted.2.sublist (List.filter_sublist M')) (hd.sublist hsub)
      calc ((L.erase m).filter (keepAgainst t m)).length
          ≤ (L.erase m).length := List.length_filter_le _ _
        _ = L.length - 1 := List.length_erase_of_mem hmL
        _ ≤ n := by
            have := List.length_pos_of_mem hmL
            omega

/-- C2.  `non_maximum_suppression` is the extract-min-by-`y2` loop of the
specification: on any input whose boxes have pairwise distinct `y2`, it
repeatedly takes the remaining box of smallest `y2`, keeps it, and discards
every remaining box whose overlap ratio (intersection over the discarded
box's own area) exceeds `t`; and on the spec's concrete scenario — two rank
boxes with distinct `y2` overlapping at ratio `9/10` with `t = 1/2`, in
either input order — exactly the box with the smaller `y2` is returned. -/
theorem c2_nms_extracts_min_y2 :
    (∀ (t : ℚ) (boxes : List BoundingBox),
        (boxes.Pairwise fun a b => a.y2 ≠ b.y2) →
        non_maximum_suppression boxes t = nmsSpecMin t boxes) ∧
    overlap ⟨0, 0, 10, 10, "10"⟩ ⟨0, 1, 10, 11, "10"⟩ = 9/10 ∧
    (⟨0, 0, 10, 10, "10"⟩ : BoundingBox).y2 < (⟨0, 1, 10, 11, "10"⟩ : BoundingBox).y2 ∧
    non_maximum_suppression [⟨0, 0, 10, 10, "10"⟩, ⟨0, 1, 10, 11, "10"⟩] (1/2) =
      [⟨0, 0, 10, 10, "10"⟩] ∧
    non_maximum_suppression [⟨0, 1, 10, 11, "10"⟩, ⟨0, 0, 10, 10, "10"⟩] (1/2) =
      [⟨0, 0, 10, 10, "10"⟩] := by
  refine ⟨?_, ?_, by decide, ?_, ?_⟩
  · intro t boxes hd
    rw [non_maximum_suppression]
    refine nmsAux_eq_nmsSpecMin t boxes.length boxes (sortDescY2 boxes).reverse
      (le_refl _) ((sortDescY2 boxes).reverse_perm.trans (sortDescY2_perm boxes)) ?_ hd
    exact List.pairwise_reverse.mpr (sortDescY2_sorted boxes)
  · norm_num [overlap, interArea, boxArea]
  · rw [non_maximum_suppression]
    norm_num [sortDescY2, insertDescY2, nmsAux_cons, nmsAux_nil, List.filter,
      keepAgainst, overlap, interArea, boxArea]
  · rw [non_maximum_suppression]
    norm_num [sortDescY2, insertDescY2, nmsAux_cons, nmsAux_nil, List.filter,
      keepAgainst, overlap, interArea, boxArea]

/-- Witness for C2: the general clause applied to the scenario input, whose
`y2` values `10` and `11` are distinct. -/
theorem c2_witness :
    non_maximum_suppression [⟨0, 0, 10, 10, "10"⟩, ⟨0, 1, 10, 11, "10"⟩] (1/2) =
      nmsSpecMin (1/2) [⟨0, 0, 10, 10, "10"⟩, ⟨0, 1, 10, 11, "10"⟩] :=
  c2_nms_extracts_min_y2.1 (1/2) _ (by decide)

/-- C3.  The claim as frozen is false of the code: boxes sharing a `y2` are
*not* processed in insertion order.  Counterexample: two disjoint boxes with
the same `y2 = 10`, fed as `[a, b]`, are returned as `[b, a]` — the stable
descending sort leaves the tied pair in insertion order and `Vec::pop` then
takes the *last* one first, so tied boxes are processed in reverse insertion
order. -/
theorem c3_tie_order_cex :
    non_maximum_suppression [⟨0, 0, 10, 10, "a"⟩, ⟨20, 0, 30, 10, "b"⟩] (1/2) =
      [⟨20, 0, 30, 10, "b"⟩, ⟨0, 0, 10, 10, "a"⟩] ∧
    ([⟨20, 0, 30, 10, "b"⟩, ⟨0, 0, 10, 10, "a"⟩] : List BoundingBox) ≠
      [⟨0, 0, 10, 10, "a"⟩, ⟨20, 0, 30, 10, "b"⟩] := by
  refine ⟨?_, by decide⟩
  rw [non_maximum_suppression]
  norm_num [sortDescY2, insertDescY2, nmsAux_cons, nmsAux_nil, List.filter,
    keepAgainst, overlap, interArea, boxArea]

theorem sortDescY2_of_constY2 (l : List BoundingBox)
    (h : ∀ a ∈ l, ∀ b ∈ l, a.y2 = b.y2) : sortDescY2 l = l := by
  induction l with
  | nil => rw [sortDescY2]
  | cons a rest ih =>
    rw [sortDescY2]
    rw [ih fun x hx y hy =>
      h x (List.mem_cons_of_mem a hx) y (List.mem_cons_of_mem a hy)]
    cases rest with
    | nil => rw [insertDescY2]
    | cons b bs =>
      rw [insertDescY2, if_pos]
      exact le_of_eq (h b (by simp) a (by simp))

/-- C3 (amended).  Boxes sharing the same `y2` are taken in *reverse*
insertion order: on a list of boxes that all share one `y2`, the stable
descending sort is the identity and the pop-from-the-back loop processes the
input back to front, so `non_maximum_suppression` equals the suppression loop
run on the reversed input. -/
theorem c3_ties_reverse_insertion (t : ℚ) (boxes : List BoundingBox)
    (h : ∀ a ∈ boxes, ∀ b ∈ boxes, a.y2 = b.y2) :
    non_maximum_suppression boxes t = nmsAux t boxes.reverse := by
  rw [non_maximum_suppression, sortDescY2_of_constY2 boxes h]

/-- Witness for C3 (amended): two disjoint boxes sharing `y2 = 10`. -/
theorem c3_witness :
    non_maximum_suppression [⟨0, 0, 10, 10, "a"⟩, ⟨20, 0, 30, 10, "b"⟩] (1/2) =
      nmsAux (1/2) ([⟨0, 0, 10, 10, "a"⟩, ⟨20, 0, 30, 10, "b"⟩] : List BoundingBox).reverse :=
  c3_ties_reverse_insertion (1/2) _ (by decide)

/-! ## Properties of the spatial grouper -/

theorem groupYAux_flatten (step : Int) :
    ∀ (bs : List BoundingBox) (yStart yEnd : Int) (currentRow : List BoundingBox),
      (groupYAux step yStart yEnd currentRow bs).flatten = currentRow ++ bs := by
  intro bs
  induction bs with
  | nil =>
    intro yStart yEnd currentRow
    rw [groupYAux]
    by_cases hc : currentRow = []
    · rw [if_pos hc, hc]; rfl
    · rw [if_neg hc]; simp
  | cons b rest ih =>
    intro yStart yEnd currentRow
    rw [groupYAux]
    by_cases hin : yStart ≤ (b.y1 + b.y2).tdiv 2 ∧ (b.y1 + b.y2).tdiv 2 < yEnd
    · rw [if_pos hin, ih]
      simp
    · rw [if_neg hin]
      by_cases hc : currentRow = []
      · rw [if_pos hc, ih, hc]
        rfl
      · rw [if_neg hc]
        simp only [List.flatten_cons, ih]
        simp

/-- C9.  Re-grouping the flattened output of the vertical row grouper (rows
concatenated in order) reproduces the same row partition.  This holds because
the grouper assigns every input box to exactly one row, in input order, so
flattening its output is the identity and the second run sees the identical
input with the identical initial bucket state. -/
theorem c9_regroup_idempotent (boxes : List BoundingBox) (y_range_step : Int) :
    group_bounding_boxes_by_y_range
        ((group_bounding_boxes_by_y_range boxes y_range_step).flatten) y_range_step =
      group_bounding_boxes_by_y_range boxes y_range_step := by
  have hfl : (group_bounding_boxes_by_y_range boxes y_range_step).flatten = boxes := by
    rw [group_bounding_boxes_by_y_range, groupYAux_flatten, List.nil_append]
  rw [hfl]

/-! ## Properties of the game-state assembler -/

theorem updateDiscard_length (disc : List (Option String))
    (rows : List (List BoundingBox)) :
    (updateDiscard disc rows).length = disc.length := by
  rw [updateDiscard]
  generalize rows.enum.take 4 = l
  induction l generalizing disc with
  | nil => rfl
  | cons p l ih =>
    rw [List.foldl_cons]
    cases hp : p.2.head? with
    | none => rw [ih]
    | some b => rw [ih, List.length_set]

theorem modifyPile_length (piles : List (List String)) (i : Nat)
    (f : List String → List String) :
    (modifyPile piles i f).length = piles.length := by
  rw [modifyPile, List.length_set]

theorem extendFold_length (idx : Nat) (rows : List (List BoundingBox)) :
    ∀ ps : List (List String),
      (rows.foldl (fun ps row => modifyPile ps idx fun cur => cur ++ rowLabels row)
        ps).length = ps.length := by
  induction rows with
  | nil => intro ps; rfl
  | cons r rest ih =>
    intro ps
    rw [List.foldl_cons, ih, modifyPile_length]

theorem updatePile_length (piles : List (List String)) (idx : Nat)
    (rows : List (List BoundingBox)) (y_range_step : Int) :
    (updatePile piles idx rows y_range_step).length = piles.length := by
  simp only [updatePile]
  rw [extendFold_length]
  cases hm : (rows.flatten.map fun b => b.y1).min? with
  | none => rfl
  | some topY1 => exact modifyPile_length piles idx _

theorem applyZone_piles (y_range_step : Int)
    (rowsOf : Nat → List (List BoundingBox))
    (st : List String × List (List String) × List (Option String)) (z : Nat) :
    (applyZone y_range_step rowsOf st z).2.1 =
      if z = 0 ∨ z = 8 then st.2.1
      else if ((startPercent z - 11).tdiv 11).toNat < st.2.1.length then
        updatePile st.2.1 (((startPercent z - 11).tdiv 11).toNat) (rowsOf z) y_range_step
      else st.2.1 := by
  by_cases h0 : z = 0
  · subst h0
    simp [applyZone]
  · by_cases h8 : z = 8
    · subst h8
      simp [applyZone]
    · simp only [applyZone]
      rw [if_neg h0, if_neg h8, if_neg (show ¬(z = 0 ∨ z = 8) by tauto)]
      by_cases hidx : ((startPercent z - 11).tdiv 11).toNat < st.2.1.length
      · rw [if_pos hidx, if_pos hidx]
      · rw [if_neg hidx, if_neg hidx]

set_option maxHeartbeats 1000000 in
theorem generate_piles_eq (cards suits : List BoundingBox)
    (image_width y_range_step : Int) :
    (generate_game_state cards suits image_width y_range_step).game_piles =
      updatePile (updatePile (updatePile (updatePile (updatePile (updatePile (updatePile
        (List.replicate 7 []) 0 (zoneRows cards suits image_width y_range_step 1)
          y_range_step) 1 (zoneRows cards suits image_width y_range_step 2)
          y_range_step) 2 (zoneRows cards suits image_width y_range_step 3)
          y_range_step) 3 (zoneRows cards suits image_width y_range_step 4)
          y_range_step) 4 (zoneRows cards suits image_width y_range_step 5)
          y_range_step) 5 (zoneRows cards suits image_width y_range_step 6)
          y_range_step) 6 (zoneRows cards suits image_width y_range_step 7)
          y_range_step := by
  have e1 : ((startPercent 1 - 11).tdiv 11).toNat = 0 := by decide
  have e2 : ((startPercent 2 - 11).tdiv 11).toNat = 1 := by decide
  have e3 : ((startPercent 3 - 11).tdiv 11).toNat = 2 := by decide
  have e4 : ((startPercent 4 - 11).tdiv 11).toNat = 3 := by decide
  have e5 : ((startPercent 5 - 11).tdiv 11).toNat = 4 := by decide
  have e6 : ((startPercent 6 - 11).tdiv 11).toNat = 5 := by decide
  have e7 : ((startPercent 7 - 11).tdiv 11).toNat = 6 := by decide
  simp only [generate_game_state]
  generalize zoneRows cards suits image_width y_range_step = R
  simp [zoneList, List.foldl_cons, List.foldl_nil, applyZone_piles,
    e1, e2, e3, e4, e5, e6, e7, updatePile_length, List.length_replicate]

theorem replicate_getD_nil (n i : Nat) :
    (List.replicate n ([] : List String)).getD i [] = [] := by
  rw [List.getD_eq_getElem?_getD, List.getElem?_replicate]
  by_cases h : i < n
  · rw [if_pos h]
    rfl
  · rw [if_neg h]
    rfl

theorem modifyPile_getD_ne (ps : List (List String)) (i j : Nat)
    (f : List String → List String) (h : i ≠ j) :
    (modifyPile ps i f).getD j [] = ps.getD j [] := by
  rw [modifyPile, List.getD_eq_getElem?_getD, List.getElem?_set_ne h,
    ← List.getD_eq_getElem?_getD]

theorem extendFold_getD_ne (idx j : Nat) (h : idx ≠ j)
    (rows : List (List BoundingBox)) :
    ∀ ps : List (List String),
      ((rows.foldl (fun ps row => modifyPile ps idx fun cur => cur ++ rowLabels row)
        ps).getD j []) = ps.getD j [] := by
  induction rows with
  | nil => intro ps; rfl
  | cons r rest ih =>
    intro ps
    rw [List.foldl_cons, ih, modifyPile_getD_ne _ _ _ _ h]

theorem updatePile_getD_ne (ps : List (List String)) (idx j : Nat)
    (rows : List (List BoundingBox)) (y_range_step : Int) (h : idx ≠ j) :
    (updatePile ps idx rows y_range_step).getD j [] = ps.getD j [] := by
  simp only [updatePile]
  rw [extendFold_getD_ne idx j h]
  cases hm : (rows.flatten.map fun b => b.y1).min? with
  | none => rfl
  | some topY1 => exact modifyPile_getD_ne ps idx j _ h

theorem modifyPile_getD_eq (ps : List (List String)) (i : Nat)
    (f : List String → List String) (h : i < ps.length) :
    (modifyPile ps i f).getD i [] = f (ps.getD i []) := by
  rw [modifyPile, List.getD_eq_getElem?_getD, List.getElem?_set_self h]
  rfl

theorem extendFold_getD_eq (idx : Nat) (rows : List (List BoundingBox)) :
    ∀ ps : List (List String), idx < ps.length →
      ((rows.foldl (fun ps row => modifyPile ps idx fun cur => cur ++ rowLabels row)
        ps).getD idx []) = ps.getD idx [] ++ (rows.map rowLabels).flatten := by
  induction rows with
  | nil => intro ps _; simp
  | cons r rest ih =>
    intro ps h
    rw [List.foldl_cons, ih _ (by rw [modifyPile_length]; exact h),
      modifyPile_getD_eq _ _ _ h]
    simp [List.append_assoc]

theorem updatePile_getD_eq (ps : List (List String)) (idx : Nat)
    (rows : List (List BoundingBox)) (y_range_step : Int) (h : idx < ps.length)
    (topY1 : Int) (hm : (rows.flatten.map fun b => b.y1).min? = some topY1) :
    (updatePile ps idx rows y_range_step).getD idx [] =
      resizeNull (ps.getD idx [])
          (usizeOfI32 ((saturatingSubI32 topY1 75).tdiv y_range_step)) ++
        (rows.map rowLabels).flatten := by
  simp only [updatePile, hm]
  rw [extendFold_getD_eq _ _ _ (by rw [modifyPile_length]; exact h),
    modifyPile_getD_eq _ _ _ h]

theorem resizeNull_nil (n : Nat) : resizeNull [] n = List.replicate n "null" := by
  rw [resizeNull]
  simp

/-- C7.  Every zone other than `0%-11%` and `89%-100%` is assembled into the
tableau pile of index `(zone_start_percent - 11) / 11`, which lies in `[0,6]`
for all seven such zones; within the pile, when the zone's topmost box (the
minimum `y1` over all its rows) sits at or below the starting offset 75, the
assembler prepends exactly `(topmost.y1 - 75) / y_range_step` (integer
division on non-negative operands, i.e. floor) sentinel entries and then
appends every row's labels in order.  The bound `topY1 ≤ 2147483647` is the
`i32` range of the coordinate. -/
theorem c7_tableau_assembly (cards suits : List BoundingBox)
    (image_width y_range_step : Int) (z : Nat)
    (hz : z ∈ zoneList) (hz0 : z ≠ 0) (hz8 : z ≠ 8) (topY1 : Int)
    (hmin : ((zoneRows cards suits image_width y_range_step z).flatten.map
      (fun b => b.y1)).min? = some topY1)
    (htop : 75 ≤ topY1) (htop2 : topY1 ≤ 2147483647) (hstep : 0 < y_range_step) :
    ((startPercent z - 11).tdiv 11).toNat < 7 ∧
    (generate_game_state cards suits image_width y_range_step).game_piles.getD
        (((startPercent z - 11).tdiv 11).toNat) [] =
      List.replicate (((topY1 - 75).tdiv y_range_step).toNat) "null" ++
        ((zoneRows cards suits image_width y_range_step z).map rowLabels).flatten := by
  have hsat : saturatingSubI32 topY1 75 = topY1 - 75 := by
    rw [saturatingSubI32, min_eq_left (by omega), max_eq_left (by omega)]
  have hdivnn : 0 ≤ (topY1 - 75).tdiv y_range_step :=
    Int.tdiv_nonneg (by omega) (le_of_lt hstep)
  have hdivle : (topY1 - 75).tdiv y_range_step ≤ topY1 - 75 := by
    rw [Int.tdiv_eq_ediv (by omega) (le_of_lt hstep)]
    exact Int.ediv_le_self _ (by omega)
  have husize : usizeOfI32 ((saturatingSubI32 topY1 75).tdiv y_range_step) =
      ((topY1 - 75).tdiv y_range_step).toNat := by
    rw [hsat, usizeOfI32,
      show ((topY1 - 75).tdiv y_range_step).emod 18446744073709551616 =
        ((topY1 - 75).tdiv y_range_step) % 18446744073709551616 from rfl,
      Int.emod_eq_of_lt hdivnn (by omega)]
  rw [generate_piles_eq]
  simp only [zoneList, List.mem_cons, List.not_mem_nil, or_false] at hz
  rcases hz with hzv | hzv | hzv | hzv | hzv | hzv | hzv | hzv | hzv
  · exact absurd hzv hz0
  · subst hzv
    have hidx : ((startPercent 1 - 11).tdiv 11).toNat = 0 := by decide
    rw [hidx]
    refine ⟨by decide, ?_⟩
    rw [updatePile_getD_ne _ 6 0 _ _ (by decide)]
    rw [updatePile_getD_ne _ 5 0 _ _ (by decide)]
    rw [updatePile_getD_ne _ 4 0 _ _ (by decide)]
    rw [updatePile_getD_ne _ 3 0 _ _ (by decide)]
    rw [updatePile_getD_ne _ 2 0 _ _ (by decide)]
    rw [updatePile_getD_ne _ 1 0 _ _ (by decide)]
    rw [updatePile_getD_eq _ 0 _ _ (by simp [updatePile_length]) _ hmin]
    rw [replicate_getD_nil, resizeNull_nil, husize]
  · subst hzv
    have hidx : ((startPercent 2 - 11).tdiv 11).toNat = 1 := by decide
    rw [hidx]
    refine ⟨by decide, ?_⟩
    rw [updatePile_getD_ne _ 6 1 _ _ (by decide)]
    rw [updatePile_getD_ne _ 5 1 _ _ (by decide)]
    rw [updatePile_getD_ne _ 4 1 _ _ (by decide)]
    rw [updatePile_getD_ne _ 3 1 _ _ (by decide)]
    rw [updatePile_getD_ne _ 2 1 _ _ (by decide)]
    rw [updatePile_getD_eq _ 1 _ _ (by simp [updatePile_length]) _ hmin]
    rw [updatePile_getD_ne _ 0 1 _ _ (by decide)]
    rw [replicate_getD_nil, resizeNull_nil, husize]
  · subst hzv
    have hidx : ((startPercent 3 - 11).tdiv 11).toNat = 2 := by decide
    rw [hidx]
    refine ⟨by decide, ?_⟩
    rw [updatePile_getD_ne _ 6 2 _ _ (by decide)]
    rw [updatePile_getD_ne _ 5 2 _ _ (by decide)]
    rw [updatePile_getD_ne _ 4 2 _ _ (by decide)]
    rw [updatePile_getD_ne _ 3 2 _ _ (by decide)]
    rw [updatePile_getD_eq _ 2 _ _ (by simp [updatePile_length]) _ hmin]
    rw [updatePile_getD_ne _ 1 2 _ _ (by decide)]
    rw [updatePile_getD_ne _ 0 2 _ _ (by decide)]
    rw [replicate_getD_nil, resizeNull_nil, husize]
  · subst hzv
    have hidx : ((startPercent 4 - 11).tdiv 11).toNat = 3 := by decide
    rw [hidx]
    refine ⟨by decide, ?_⟩
    rw [updatePile_getD_ne _ 6 3 _ _ (by decide)]
    rw [updatePile_getD_ne _ 5 3 _ _ (by decide)]
    rw [updatePile_getD_ne _ 4 3 _ _ (by decide)]
    rw [updatePile_getD_eq _ 3 _ _ (by simp [updatePile_length]) _ hmin]
    rw [updatePile_getD_ne _ 2 3 _ _ (by decide)]
    rw [updatePile_getD_ne _ 1 3 _ _ (by decide)]
    rw [updatePile_getD_ne _ 0 3 _ _ (by decide)]
    rw [replicate_getD_nil, resizeNull_nil, husize]
  · subst hzv
    have hidx : ((startPercent 5 - 11).tdiv 11).toNat = 4 := by decide
    rw [hidx]
    refine ⟨by decide, ?_⟩
    rw [updatePile_getD_ne _ 6 4 _ _ (by decide)]
    rw [updatePile_getD_ne _ 5 4 _ _ (by decide)]
    rw [updatePile_getD_eq _ 4 _ _ (by simp [updatePile_length]) _ hmin]
    rw [updatePile_getD_ne _ 3 4 _ _ (by decide)]
    rw [updatePile_getD_ne _ 2 4 _ _ (by decide)]
    rw [updatePile_getD_ne _ 1 4 _ _ (by decide)]
    rw [updatePile_getD_ne _ 0 4 _ _ (by decide)]
    rw [replicate_getD_nil, resizeNull_nil, husize]
  · subst hzv
    have hidx : ((startPercent 6 - 11).tdiv 11).toNat = 5 := by decide
    rw [hidx]
    refine ⟨by decide, ?_⟩
    rw [updatePile_getD_ne _ 6 5 _ _ (by decide)]
    rw [updatePile_getD_eq _ 5 _ _ (by simp [updatePile_length]) _ hmin]
    rw [updatePile_getD_ne _ 4 5 _ _ (by decide)]
    rw [updatePile_getD_ne _ 3 5 _ _ (by decide)]
    rw [updatePile_getD_ne _ 2 5 _ _ (by decide)]
    rw [updatePile_getD_ne _ 1 5 _ _ (by decide)]
    rw [updatePile_getD_ne _ 0 5 _ _ (by decide)]
    rw [replicate_getD_nil, resizeNull_nil, husize]
  · subst hzv
    have hidx : ((startPercent 7 - 11).tdiv 11).toNat = 6 := by decide
    rw [hidx]
    refine ⟨by decide, ?_⟩
    rw [updatePile_getD_eq _ 6 _ _ (by simp [updatePile_length]) _ hmin]
    rw [updatePile_getD_ne _ 5 6 _ _ (by decide)]
    rw [updatePile_getD_ne _ 4 6 _ _ (by decide)]
    rw [updatePile_getD_ne _ 3 6 _ _ (by decide)]
    rw [updatePile_getD_ne _ 2 6 _ _ (by decide)]
    rw [updatePile_getD_ne _ 1 6 _ _ (by decide)]
    rw [updatePile_getD_ne _ 0 6 _ _ (by decide)]
    rw [replicate_getD_nil, resizeNull_nil, husize]
  · exact absurd hzv hz8

/-! ## Pile cardinalities (claim C8) -/

theorem applyZone_piles_len (y_range_step : Int)
    (rowsOf : Nat → List (List BoundingBox))
    (st : List String × List (List String) × List (Option String)) (z : Nat) :
    (applyZone y_range_step rowsOf st z).2.1.length = st.2.1.length := by
  simp only [applyZone]
  by_cases h0 : z = 0
  · rw [if_pos h0]
  · rw [if_neg h0]
    by_cases h8 : z = 8
    · rw [if_pos h8]
    · rw [if_neg h8]
      by_cases hidx : ((startPercent z - 11).tdiv 11).toNat < st.2.1.length
      · rw [if_pos hidx]
        exact updatePile_length _ _ _ _
      · rw [if_neg hidx]

theorem applyZone_discard_len (y_range_step : Int)
    (rowsOf : Nat → List (List BoundingBox))
    (st : List String × List (List String) × List (Option String)) (z : Nat) :
    (applyZone y_range_step rowsOf st z).2.2.length = st.2.2.length := by
  simp only [applyZone]
  by_cases h0 : z = 0
  · rw [if_pos h0]
  · rw [if_neg h0]
    by_cases h8 : z = 8
    · rw [if_pos h8]
      exact updateDiscard_length _ _
    · rw [if_neg h8]
      by_cases hidx : ((startPercent z - 11).tdiv 11).toNat < st.2.1.length
      · rw [if_pos hidx]
      · rw [if_neg hidx]

theorem foldZones_lengths (y_range_step : Int)
    (rowsOf : Nat → List (List BoundingBox)) :
    ∀ (zs : List Nat) (st : List String × List (List String) × List (Option String)),
      ((zs.foldl (applyZone y_range_step rowsOf) st).2.1.length = st.2.1.length ∧
       (zs.foldl (applyZone y_range_step rowsOf) st).2.2.length = st.2.2.length) := by
  intro zs
  induction zs with
  | nil => intro st; exact ⟨rfl, rfl⟩
  | cons z rest ih =>
    intro st
    rw [List.foldl_cons]
    refine ⟨?_, ?_⟩
    · rw [(ih (applyZone y_range_step rowsOf st z)).1, applyZone_piles_len]
    · rw [(ih (applyZone y_range_step rowsOf st z)).2, applyZone_discard_len]

/-- C8.  For every input — any card boxes, any suit boxes, any image width,
any row step — the assembled `GameState` has exactly 7 `game_piles` and
exactly 4 `discard_pile` entries. -/
theorem c8_pile_cardinalities (cards suits : List BoundingBox)
    (image_width y_range_step : Int) :
    (generate_game_state cards suits image_width y_range_step).game_piles.length = 7 ∧
    (generate_game_state cards suits image_width y_range_step).discard_pile.length = 4 := by
  simp only [generate_game_state]
  constructor
  · rw [(foldZones_lengths _ _ _ _).1, List.length_replicate]
  · rw [List.length_map, (foldZones_lengths _ _ _ _).2, List.length_replicate]

set_option maxRecDepth 4000 in
/-- C10.  The claim as frozen asserts that the hidden-card count is clamped
at zero by `saturating_sub`.  It is not: `i32::saturating_sub` only clamps at
the `i32` range bounds, so a tableau zone whose topmost box has `y1 = 0` (with
the default row step 40) yields `(0 - 75) / 40 = -1`, and the `as usize` cast
then turns `-1` into `2^64 - 1 = 18446744073709551615`, so `Vec::resize` is
asked for that many leading sentinel entries: the pile built for such a zone
holds that count plus one entries rather than the claimed `0 + 1`. -/
theorem c10_negative_count_eval :
    (saturatingSubI32 0 75).tdiv 40 = -1 ∧
    usizeOfI32 ((saturatingSubI32 0 75).tdiv 40) = 18446744073709551615 ∧
    ((updatePile (List.replicate 7 []) 0 [[⟨100, 0, 110, 10, "a"⟩]] 40).getD 0 []).length =
      usizeOfI32 ((saturatingSubI32 0 75).tdiv 40) + 1 := by
  refine ⟨by decide, by decide, ?_⟩
  have hm : (([[(⟨100, 0, 110, 10, "a"⟩ : BoundingBox)]] :
      List (List BoundingBox)).flatten.map fun b => b.y1).min? = some 0 := by decide
  have h1 : ((List.replicate 7 ([] : List String)).getD 0 []) = [] := by decide
  have h2 : ∀ v : List String,
      (((List.replicate 7 ([] : List String)).set 0 v).getD 0 []) = v := by
    intro v
    rw [List.getD_eq_getElem?_getD, List.getElem?_set_self (by simp)]
    rfl
  simp only [updatePile, hm, List.foldl_cons, List.foldl_nil, modifyPile, h1,
    List.set_set, h2]
  rw [resizeNull_nil, List.length_append, List.length_replicate]
  have h3 : (rowLabels [(⟨100, 0, 110, 10, "a"⟩ : BoundingBox)]).length = 1 := rfl
  rw [h3]

/-! ## Zone partition (claim C4) -/

theorem inBand_unique {i j : Nat} {p : ℚ} (hi : inBand i p = true)
    (hj : inBand j p = true) : i = j := by
  simp only [inBand, bandLo, bandHi, decide_eq_true_eq] at hi hj
  obtain ⟨hi1, hi2⟩ := hi
  obtain ⟨hj1, hj2⟩ := hj
  have hij : (i : ℚ) < (j : ℚ) + 1 := by linarith
  have hji : (j : ℚ) < (i : ℚ) + 1 := by linarith
  have hij2 : i < j + 1 := by exact_mod_cast hij
  have hji2 : j < i + 1 := by exact_mod_cast hji
  omega

/-- C4.  The claim as frozen is false of the code: the last band does *not*
include the right edge (100%) as a closed endpoint — every band, the ninth
included, tests `start <= p && p < end`.  Counterexample: a box whose
horizontal center sits exactly on the right image edge (center 10 in an image
of width 10, i.e. at 100%) satisfies no band's test, is assigned to no zone,
and is silently dropped from every bucket. -/
theorem c4_right_edge_cex :
    xPercentage ⟨9, 0, 11, 10, "e"⟩ 10 = 1 ∧
    zoneOf ⟨9, 0, 11, 10, "e"⟩ 10 = none ∧
    ∀ z ∈ zoneList, group_bounding_boxes_by_x_percentage [⟨9, 0, 11, 10, "e"⟩] 10 z = [] := by
  have hp : xPercentage ⟨9, 0, 11, 10, "e"⟩ 10 = 1 := by
    norm_num [xPercentage]
  have hz : zoneOf ⟨9, 0, 11, 10, "e"⟩ 10 = none := by
    rw [zoneOf, hp]
    norm_num [zoneList, List.find?, inBand, bandLo, bandHi]
  refine ⟨hp, hz, ?_⟩
  intro z hz'
  rw [group_bounding_boxes_by_x_percentage, List.filter]
  rw [hz]
  rfl

theorem find_band_exists {p : ℚ} (h0 : 0 ≤ p) (h1 : p < 1) :
    ∃ i ∈ zoneList, zoneList.find? (fun k => inBand k p) = some i ∧
      ∀ j, inBand j p = true → j = i := by
  have hfl0 : 0 ≤ ⌊(9 : ℚ) * p⌋ := Int.floor_nonneg.mpr (by linarith)
  have hfl9 : ⌊(9 : ℚ) * p⌋ < 9 := Int.floor_lt.mpr (by push_cast; linarith)
  have hcast : (((⌊(9 : ℚ) * p⌋).toNat : ℚ)) = ((⌊(9 : ℚ) * p⌋ : ℤ) : ℚ) := by
    exact_mod_cast Int.toNat_of_nonneg hfl0
  have hband : inBand (⌊(9 : ℚ) * p⌋).toNat p = true := by
    simp only [inBand, bandLo, bandHi, decide_eq_true_eq]
    constructor
    · rw [div_le_iff₀ (by norm_num : (0:ℚ) < 9), hcast]
      calc ((⌊(9 : ℚ) * p⌋ : ℤ) : ℚ) ≤ 9 * p := Int.floor_le _
        _ = p * 9 := by ring
    · rw [lt_div_iff₀ (by norm_num : (0:ℚ) < 9)]
      have := Int.lt_floor_add_one ((9 : ℚ) * p)
      rw [hcast]
      linarith
  have hmem : (⌊(9 : ℚ) * p⌋).toNat ∈ zoneList := by
    have h9 : (⌊(9 : ℚ) * p⌋).toNat < 9 := by omega
    simp only [zoneList, List.mem_cons, List.not_mem_nil, or_false]
    omega
  have hSome : (zoneList.find? (fun k => inBand k p)).isSome := by
    rw [List.find?_isSome]
    exact ⟨_, hmem, hband⟩
  obtain ⟨a, ha⟩ := Option.isSome_iff_exists.mp hSome
  have hpa : inBand a p = true := @List.find?_some _ (fun k => inBand k p) a zoneList ha
  have hai : a = (⌊(9 : ℚ) * p⌋).toNat := inBand_unique hpa hband
  refine ⟨a, ?_, ha, fun j hj => inBand_unique hj hpa⟩
  rw [hai]
  exact hmem

/-- C4 (amended).  All nine bands are half-open `[i/9, (i+1)/9)` intervals of
equal width `1/9` that partition `[0%, 100%)`: every box whose horizontal
center percentage lies in `[0, 1)` is assigned by `zoneOf` to the unique band
containing it.  A box whose center sits at or beyond the right edge (100%)
belongs to no band and is dropped — the last band's upper endpoint is
exclusive, not inclusive. -/
theorem c4_zone_partition (b : BoundingBox) (image_width : Int)
    (h0 : 0 ≤ xPercentage b image_width) (h1 : xPercentage b image_width < 1) :
    (∀ i ∈ zoneList, bandHi i - bandLo i = 1/9) ∧
    ∃ i ∈ zoneList, zoneOf b image_width = some i ∧
      ∀ j, inBand j (xPercentage b image_width) = true → j = i := by
  constructor
  · intro i _
    rw [bandHi, bandLo]
    ring
  · rw [zoneOf]
    exact find_band_exists h0 h1

/-- Witness for C4 (amended): a box with center `1` in an image of width 10,
whose percentage `1/10` lies in `[0, 1)` and falls in the first band. -/
theorem c4_witness :
    (0 ≤ xPercentage ⟨0, 0, 2, 2, "x"⟩ 10 ∧ xPercentage ⟨0, 0, 2, 2, "x"⟩ 10 < 1) ∧
    ((∀ i ∈ zoneList, bandHi i - bandLo i = 1/9) ∧
     ∃ i ∈ zoneList, zoneOf ⟨0, 0, 2, 2, "x"⟩ 10 = some i ∧
       ∀ j, inBand j (xPercentage ⟨0, 0, 2, 2, "x"⟩ 10) = true → j = i) := by
  have h0 : (0 : ℚ) ≤ xPercentage ⟨0, 0, 2, 2, "x"⟩ 10 := by norm_num [xPercentage]
  have h1 : xPercentage ⟨0, 0, 2, 2, "x"⟩ 10 < 1 := by norm_num [xPercentage]
  exact ⟨⟨h0, h1⟩, c4_zone_partition _ _ h0 h1⟩

/-! ## The card-suit associator (claim C5) -/

/-- Modelled from the spec, §4.4: the first box attaining the minimum of `f`
over a list ("ties in minimal distance resolve to whichever suit is
encountered first when scanning suits in their original order"). -/
def firstArgmin (f : BoundingBox → Int) : List BoundingBox → Option BoundingBox
  | [] => none
  | a :: rest =>
    match firstArgmin f rest with
    | none => some a
    | some m => if f a ≤ f m then some a else some m

/-- Modelled from the spec, §4.4: "for each rank box, find the suit box
minimizing horizontal gap `|suit.x1 − card.x2|` among suit boxes satisfying
vertical overlap", ties to the first in scan order. -/
def closestSuitSpec (card : BoundingBox) (suits : List BoundingBox) :
    Option BoundingBox :=
  firstArgmin (suitGap card) (suits.filter fun s => decide (vertOverlap card s))

theorem suitScan_fold (card : BoundingBox) :
    ∀ (suits : List BoundingBox) (md : Int) (cur : Option String),
      suits.foldl (suitScanStep card) (md, cur) =
        match closestSuitSpec card suits with
        | none => (md, cur)
        | some m =>
            if suitGap card m < md then (suitGap card m, some m.label) else (md, cur) := by
  intro suits
  induction suits with
  | nil =>
    intro md cur
    rw [List.foldl_nil, closestSuitSpec, List.filter_nil, firstArgmin]
  | cons s rest ih =>
    intro md cur
    rw [List.foldl_cons]
    simp only [closestSuitSpec] at ih ⊢
    by_cases hv : vertOverlap card s
    · have hfil : (s :: rest).filter (fun x => decide (vertOverlap card x)) =
          s :: rest.filter (fun x => decide (vertOverlap card x)) := by
        rw [List.filter_cons, if_pos (by simpa using hv)]
      rw [hfil, firstArgmin]
      by_cases hd : suitGap card s < md
      · rw [show suitScanStep card (md, cur) s = (suitGap card s, some s.label) from
          by rw [suitScanStep, if_pos ⟨hv, hd⟩], ih]
        cases hm : firstArgmin (suitGap card)
            (rest.filter fun x => decide (vertOverlap card x)) with
        | none => simp [hd]
        | some m =>
          by_cases hsm : suitGap card s ≤ suitGap card m
          · have hnm : ¬ suitGap card m < suitGap card s := not_lt.mpr hsm
            simp [hsm, hnm, hd]
          · have hms : suitGap card m < suitGap card s := lt_of_not_le hsm
            have hmd : suitGap card m < md := lt_trans hms hd
            simp [hsm, hms, hmd, hd]
      · rw [show suitScanStep card (md, cur) s = (md, cur) from
          by rw [suitScanStep, if_neg (by tauto)], ih]
        cases hm : firstArgmin (suitGap card)
            (rest.filter fun x => decide (vertOverlap card x)) with
        | none => simp [hd]
        | some m =>
          by_cases hsm : suitGap card s ≤ suitGap card m
          · have hmd : ¬ suitGap card m < md := by omega
            simp [hsm, hd, hmd]
          · simp [hsm]
    · rw [show suitScanStep card (md, cur) s = (md, cur) from
        by rw [suitScanStep, if_neg (by tauto)], ih,
        List.filter_cons, if_neg (by simpa using hv)]

theorem findClosestSuit_eq (card : BoundingBox) (suits : List BoundingBox) :
    findClosestSuit card suits =
      match closestSuitSpec card suits with
      | none => none
      | some m => if suitGap card m < 2147483647 then some m.label else none := by
  rw [findClosestSuit, suitScan_fold]
  cases hm : closestSuitSpec card suits with
  | none => rfl
  | some m =>
    by_cases hd : suitGap card m < 2147483647
    · simp [hd]
    · simp [hd]

/-- C5.  The claim as frozen is false of the code at one extreme input: the
scan's running minimum starts at the sentinel `i32::MAX = 2147483647` and only
a *strictly smaller* distance wins, so a vertically overlapping suit at
horizontal gap exactly `2147483647` is never selected although per the claim
"such a suit exists" and the label should become combined. -/
theorem c5_max_sentinel_cex :
    vertOverlap ⟨2147483640, 0, 2147483647, 10, "10"⟩ ⟨0, 0, 10, 10, "hearts"⟩ ∧
    suitGap ⟨2147483640, 0, 2147483647, 10, "10"⟩ ⟨0, 0, 10, 10, "hearts"⟩ = 2147483647 ∧
    associate_cards_and_suits [⟨2147483640, 0, 2147483647, 10, "10"⟩]
        [⟨0, 0, 10, 10, "hearts"⟩] =
      [⟨2147483640, 0, 2147483647, 10, "10"⟩] := by
  refine ⟨by decide, by decide, by decide⟩

/-- C5 (amended).  For every rank box, `associate_cards_and_suits` selects the
suit box minimizing `|suit.x1 − card.x2|` among the suits satisfying the
vertical-overlap condition, ties resolving to the suit encountered first in
scan order (that is exactly `closestSuitSpec`); when such a suit exists *and
its gap is strictly below the sentinel `i32::MAX = 2147483647`*, the rank
box's label becomes the rank label, a space, then the suit label, and
otherwise the rank box is returned unchanged. -/
theorem c5_associate_nearest (cards suits : List BoundingBox) :
    associate_cards_and_suits cards suits = cards.map fun card =>
      match closestSuitSpec card suits with
      | some m =>
          if suitGap card m < 2147483647 then
            { card with label := card.label ++ " " ++ m.label }
          else card
      | none => card := by
  rw [associate_cards_and_suits]
  refine List.map_congr_left ?_
  intro card _
  rw [findClosestSuit_eq]
  cases hm : closestSuitSpec card suits with
  | none => rfl
  | some m =>
    by_cases hd : suitGap card m < 2147483647
    · simp [hd]
    · simp [hd]

/-! ## Discard assembly (claim C6) -/

theorem applyZone_discard (y_range_step : Int)
    (rowsOf : Nat → List (List BoundingBox))
    (st : List String × List (List String) × List (Option String)) (z : Nat) :
    (applyZone y_range_step rowsOf st z).2.2 =
      if z = 8 then updateDiscard st.2.2 (rowsOf z) else st.2.2 := by
  simp only [applyZone]
  by_cases h0 : z = 0
  · subst h0
    rw [if_pos rfl, if_neg (by omega)]
  · rw [if_neg h0]
    by_cases h8 : z = 8
    · rw [if_pos h8, if_pos h8]
    · rw [if_neg h8, if_neg h8]
      by_cases hidx : ((startPercent z - 11).tdiv 11).toNat < st.2.1.length
      · rw [if_pos hidx]
      · rw [if_neg hidx]

/-- Modelled from the spec, §4.6 (discard branch): slot `i` of the discard
pile is the first box's label of row `i` among the first 4 rows, forced to
the sentinel when the label contains `J`, and the sentinel when the row does
not exist (or is empty). -/
def discardSlotSpec (rows : List (List BoundingBox)) (i : Nat) : String :=
  match (rows.take 4)[i]? with
  | some row =>
    match row.head? with
    | some b => if labelHasJ b.label then "null" else b.label
    | none => "null"
  | none => "null"

theorem updateDiscard_replicate_spec (rows : List (List BoundingBox)) :
    (updateDiscard (List.replicate 4 none) rows).map (fun o => o.getD "null") =
      (List.range 4).map (discardSlotSpec rows) := by
  have hr4 : List.range 4 = [0, 1, 2, 3] := rfl
  match rows with
  | [] => rfl
  | [r0] =>
    rw [updateDiscard]
    cases h0 : r0.head? <;>
      simp [List.enum, List.enumFrom, hr4, discardSlotSpec, h0]
  | [r0, r1] =>
    rw [updateDiscard]
    cases h0 : r0.head? <;> cases h1 : r1.head? <;>
      simp [List.enum, List.enumFrom, hr4, discardSlotSpec, h0, h1]
  | [r0, r1, r2] =>
    rw [updateDiscard]
    cases h0 : r0.head? <;> cases h1 : r1.head? <;> cases h2 : r2.head? <;>
      simp [List.enum, List.enumFrom, hr4, discardSlotSpec, h0, h1, h2]
  | r0 :: r1 :: r2 :: r3 :: rest =>
    rw [updateDiscard]
    cases h0 : r0.head? <;> cases h1 : r1.head? <;> cases h2 : r2.head? <;>
        cases h3 : r3.head? <;>
      simp [List.enum, List.enumFrom, hr4, discardSlotSpec, h0, h1, h2, h3]

/-- C6.  In the assembled game state, the discard pile (zone `89%-100%`,
index 8) takes at most the first 4 rows; slot `i` holds the first box's label
of row `i`, except that a label containing `J` is forced to the sentinel
`"null"` regardless of the box's position, and slots beyond the available
rows stay at the sentinel. -/
theorem c6_discard_assembly (cards suits : List BoundingBox)
    (image_width y_range_step : Int) :
    (generate_game_state cards suits image_width y_range_step).discard_pile =
      (List.range 4).map
        (discardSlotSpec (zoneRows cards suits image_width y_range_step 8)) := by
  have hfold : (generate_game_state cards suits image_width y_range_step).discard_pile =
      (updateDiscard (List.replicate 4 none)
        (zoneRows cards suits image_width y_range_step 8)).map (fun o => o.getD "null") := by
    simp only [generate_game_state, zoneList, List.foldl_cons, List.foldl_nil,
      applyZone_discard]
    norm_num
  rw [hfold, updateDiscard_replicate_spec]

/-- Witness for C7: a single rank box in zone `11%-22%` of a 900-pixel-wide
image (center percentage `1/6`), topmost `y1 = 115`, row step 40: pile 0 gets
`(115 - 75) / 40 = 1` leading sentinel and then the box's label. -/
theorem c7_witness :
    ((startPercent 1 - 11).tdiv 11).toNat < 7 ∧
    (generate_game_state [⟨140, 115, 160, 145, "10"⟩] [] 900 40).game_piles.getD
        (((startPercent 1 - 11).tdiv 11).toNat) [] =
      List.replicate ((((115 : Int) - 75).tdiv 40).toNat) "null" ++
        ((zoneRows [⟨140, 115, 160, 145, "10"⟩] [] 900 40 1).map rowLabels).flatten := by
  have hassoc : associate_cards_and_suits [⟨140, 115, 160, 145, "10"⟩] [] =
      [⟨140, 115, 160, 145, "10"⟩] := by decide
  have hzone : zoneOf ⟨140, 115, 160, 145, "10"⟩ 900 = some 1 := by
    norm_num [zoneOf, zoneList, List.find?, inBand, bandLo, bandHi, xPercentage]
  have hzr : zoneRows [⟨140, 115, 160, 145, "10"⟩] ([] : List BoundingBox) 900 40 1 =
      [[⟨140, 115, 160, 145, "10"⟩]] := by
    rw [zoneRows, hassoc, group_bounding_boxes_by_x_percentage, List.filter, hzone]
    decide
  exact c7_tableau_assembly _ _ _ _ 1 (by decide) (by decide) (by decide) 115
    (by rw [hzr]; decide) (by decide) (by decide) (by decide)
